import Mathlib

/-!
Verification of the vina-box post-processing pipeline
(`top_scoring_docking.py`): identifier normalization, table merge,
rank sorting and the Pareto-frontier scan.

Numeric score values are modelled as rationals: the Python code only
compares and orders finite float values read from the score tables, and
on such values float comparison agrees with the rational order.
-/

namespace VinaBox

/-! ### Identifier normalizer (top_scoring_docking.py, lines 42-44)

`vina_df['ligand'].apply(lambda x: f"{x}.sdf" if str(x).isdigit() else str(x))`
applied to string-valued identifiers. -/

/-- Model of Python `str.isdigit` on the ASCII identifiers of the score
tables: true iff the string is non-empty and every character is a digit. -/
def isDigitStr (s : String) : Bool :=
  !s.isEmpty && s.data.all Char.isDigit

/-- The identifier normalizer of line 43: a purely numeric identifier gets
the fixed suffix ".sdf" appended; any other string is returned unchanged. -/
def normalize (x : String) : String :=
  if isDigitStr x then x ++ ".sdf" else x

/-! ### Table merge (top_scoring_docking.py, lines 42-49) -/

/-- One row of the synthesizability table: its join key column `filename`
(already a string; `astype(str)` on line 46 is the identity here) plus the
remaining cells of the row. -/
structure SaRow where
  filename : String
  rest : List String
deriving DecidableEq, Repr

/-- One row of the Vina affinity table: its join key column `ligand` plus
the remaining cells of the row. -/
structure VinaRow where
  ligand : String
  rest : List String
deriving DecidableEq, Repr

/-- Line 42-44: the normalizer applied to the `ligand` column of a row. -/
def normalizeVina (v : VinaRow) : VinaRow :=
  ⟨normalize v.ligand, v.rest⟩

/-- `pd.merge(sa_df, vina_df, left_on='filename', right_on='ligand')`
(line 49): an inner join that, in left-row order, pairs each left row with
every right row carrying an equal key.  Column-name collisions are kept on
both sides (the `suffixes` renaming), which the pairing models by
retaining both full rows. -/
def mergeInner (sa : List SaRow) (vina : List VinaRow) : List (SaRow × VinaRow) :=
  sa.flatMap fun a => (vina.filter fun b => b.ligand == a.filename).map fun b => (a, b)

/-- Lines 42-49 combined: normalize the Vina `ligand` keys, then inner-join
with the synthesizability table on `filename = ligand`. -/
def plotMerge (sa : List SaRow) (vina : List VinaRow) : List (SaRow × VinaRow) :=
  mergeInner sa (vina.map normalizeVina)

/-- The two continuations after the merge (lines 51-53): an empty merge
prints a warning and returns at once; otherwise the function proceeds with
the merged rows. -/
inductive MergeOutcome where
  | emptyWarning
  | proceed (merged : List (SaRow × VinaRow))
deriving DecidableEq, Repr

/-- Lines 49-53: `if merged.empty: print(warning); return`. -/
def plotMergeOutcome (sa : List SaRow) (vina : List VinaRow) : MergeOutcome :=
  if plotMerge sa vina = [] then .emptyWarning else .proceed (plotMerge sa vina)

/-! ### Parsing a numeric cell

Model of Python `float()` on the plain decimal literals
(`[+-]digits[.digits]`) that the score tables contain; a cell outside this
form fails to parse, as any non-numeric cell does in the code. -/

/-- Value of a digit string, most significant first. -/
def digitsVal (cs : List Char) : ℕ :=
  cs.foldl (fun n c => 10 * n + (c.toNat - Char.toNat '0')) 0

/-- Parse a non-empty all-digit character list. -/
def parseDigits (cs : List Char) : Option ℕ :=
  if !cs.isEmpty && cs.all Char.isDigit then some (digitsVal cs) else none

/-- Parse `digits` or `digits.digits` as a non-negative rational. -/
def parseUnsigned (cs : List Char) : Option ℚ :=
  match cs.span (fun c => c != '.') with
  | (ip, []) => (parseDigits ip).map fun n => (n : ℚ)
  | (ip, _ :: fp) => do
      let n ← parseDigits ip
      let f ← parseDigits fp
      pure ((n : ℚ) + (f : ℚ) / ((10 : ℚ) ^ fp.length))

/-- Model of `float(cell)` on a table cell: an optional sign followed by a
decimal literal, `none` when the cell is not numeric. -/
def parseFloat (s : String) : Option ℚ :=
  match s.data with
  | '-' :: cs => (parseUnsigned cs).map Neg.neg
  | '+' :: cs => parseUnsigned cs
  | cs => parseUnsigned cs

/-! ### Rank sorter (top_scoring_docking.py, lines 18-32) -/

/-- Line 21 filter condition: the raw line contains at least one comma. -/
def hasComma (s : String) : Bool :=
  s.data.contains ','

/-- Split a character list at every comma. -/
def splitCells : List Char → List (List Char)
  | [] => [[]]
  | c :: rest =>
    match splitCells rest, decide (c = ',') with
    | r, true => [] :: r
    | h :: t, false => (c :: h) :: t
    | [], false => [[c]]

/-- A CSV line split into cells (the tables are plain unquoted CSV). -/
def splitLine (s : String) : List String :=
  (splitCells s.data).map fun cs => String.mk cs

/-- `float(x['affinity_kcal/mol'])` from line 26: locate the key column in
the header, fetch that cell of the row, and parse it.  `none` models every
abort of the Python expression: missing column (KeyError), short row
(`None` cell, TypeError) or a non-numeric cell (ValueError). -/
def rowKey (header row : List String) : Option ℚ := do
  let i ← header.findIdx? (fun c => c == "affinity_kcal/mol")
  let cell ← row[i]?
  parseFloat cell

/-- The key used by the sort comparator; only consulted on rows whose key
parses, where it equals the parsed key. -/
def keyD (header row : List String) : ℚ :=
  (rowKey header row).getD 0

/-- Comparator of the line-26 sort: ascending parsed key. -/
def rowLe (header : List String) (a b : List String) : Prop :=
  keyD header a ≤ keyD header b

instance (header : List String) : DecidableRel (rowLe header) :=
  fun a b => inferInstanceAs (Decidable (keyD header a ≤ keyD header b))

instance (header : List String) : IsTotal (List String) (rowLe header) :=
  ⟨fun a b => le_total (keyD header a) (keyD header b)⟩

instance (header : List String) : IsTrans (List String) (rowLe header) :=
  ⟨fun _ _ _ hab hbc => le_trans hab hbc⟩

/-- `rows.sort(key=lambda x: float(x['affinity_kcal/mol']))` (line 26):
if any row's key fails to parse the whole operation fails and no output is
produced; otherwise the rows are stably sorted ascending by the parsed
key (Python's sort is stable, modelled by stable insertion sort). -/
def sortRowsByKey (header : List String) (rows : List (List String)) :
    Option (List (List String)) :=
  if rows.all (fun r => (rowKey header r).isSome) then
    some (List.insertionSort (rowLe header) rows)
  else none

/-- `postprocess_vina_results` (lines 18-32) at the level of logical lines:
keep only lines containing a comma, read the first kept line as the header,
parse the remaining kept lines as rows, and sort them by the affinity key.
`none` models the raised exception (including the no-kept-lines case,
where `DictWriter.writeheader` raises on `fieldnames=None`); the written
file holds the header followed by exactly the returned rows. -/
def postprocess (lines : List String) : Option (List (List String)) :=
  match lines.filter hasComma with
  | [] => none
  | h :: rs => sortRowsByKey (splitLine h) (rs.map splitLine)

/-! ### Pareto frontier engine (top_scoring_docking.py, lines 147-160) -/

/-- The lexicographic order of `merged.sort_values(['SA_score',
'affinity_kcal/mol'])` (line 149) on a record's `(SA_score, affinity)`
pair: primary key ascending, ties broken by the second key ascending. -/
def lexR (p q : ℚ × ℚ) : Prop :=
  p.1 < q.1 ∨ (p.1 = q.1 ∧ p.2 ≤ q.2)

instance : DecidableRel lexR :=
  fun _ _ => instDecidableOr

instance : IsTotal (ℚ × ℚ) lexR := by
  constructor
  intro p q
  rcases lt_trichotomy p.1 q.1 with h | h | h
  · exact Or.inl (Or.inl h)
  · rcases le_total p.2 q.2 with h2 | h2
    · exact Or.inl (Or.inr ⟨h, h2⟩)
    · exact Or.inr (Or.inr ⟨h.symm, h2⟩)
  · exact Or.inr (Or.inl h)

instance : IsTrans (ℚ × ℚ) lexR := by
  constructor
  rintro p q s (h | ⟨h, h2⟩) (h' | ⟨h', h2'⟩)
  · exact Or.inl (h.trans h')
  · exact Or.inl (h' ▸ h)
  · exact Or.inl (h ▸ h')
  · exact Or.inr ⟨h.trans h', h2.trans h2'⟩

/-- Line 154 test `row['affinity_kcal/mol'] < min_y` against the running
minimum, where `none` is the initial `min_y = float('inf')`. -/
def ltMin (b : ℚ) : Option ℚ → Bool
  | none => true
  | some m => decide (b < m)

/-- The scan of lines 152-157: walk the sorted records keeping the running
minimum of the second objective; emit a record exactly when its second
objective is strictly below the minimum, then update the minimum. -/
def paretoLoop : Option ℚ → List (ℚ × ℚ) → List (ℚ × ℚ)
  | _, [] => []
  | m, r :: rs =>
    if ltMin r.2 m then r :: paretoLoop (some r.2) rs else paretoLoop m rs

/-- The frontier engine (lines 149-157): stable lexicographic sort by
`(SA_score, affinity)` followed by the strict running-minimum scan,
started at `min_y = +infinity`. -/
def pareto_front (recs : List (ℚ × ℚ)) : List (ℚ × ℚ) :=
  paretoLoop none (List.insertionSort lexR recs)

/-- The numeric reading of one merged row's `(SA_score, affinity)` cells;
`none` when either cell is non-numeric, in which case the plotting
function raises (the `astype(float)` of lines 122-125 and the float
comparison of line 154) before any frontier point is produced. -/
def parsePoint (fr : String × String) : Option (ℚ × ℚ) :=
  match parseFloat fr.1, parseFloat fr.2 with
  | some a, some b => some (a, b)
  | _, _ => none

/-- The frontier path over raw merged cells: every record's two objective
cells must parse, else the computation aborts with no partial frontier;
otherwise it is the frontier engine on the parsed records. -/
def frontierChecked (frows : List (String × String)) : Option (List (ℚ × ℚ)) :=
  (frows.mapM parsePoint).map pareto_front

/-! ### Normalizer lemmas -/

theorem isDigitStr_append_sdf (s : String) : isDigitStr (s ++ ".sdf") = false := by
  have hdata : (s ++ ".sdf").data = s.data ++ ['.', 's', 'd', 'f'] := by
    simp [String.data_append]
  simp only [isDigitStr, hdata, List.all_append]
  simp [Char.isDigit]

theorem normalize_idempotent (s : String) : normalize (normalize s) = normalize s := by
  unfold normalize
  cases h : isDigitStr s with
  | true => simp [h, isDigitStr_append_sdf]
  | false => simp [h]

/-- Claim C5: the identifier normalizer appends ".sdf" exactly to all-digit
identifiers, leaves every other string unchanged, is total over strings (a
Lean function) and idempotent; normalizing "42" gives "42.sdf" and
normalizing "42.sdf" gives "42.sdf" again. -/
theorem normalizer_idempotent_total :
    (∀ s : String, normalize (normalize s) = normalize s) ∧
    (∀ s : String, normalize s = if isDigitStr s then s ++ ".sdf" else s) ∧
    normalize "42" = "42.sdf" ∧ normalize "42.sdf" = "42.sdf" :=
  ⟨normalize_idempotent, fun _ => rfl, by decide, by decide⟩

/-- Claim C1: on the records [(1,5),(2,3),(2,8),(4,1)] the frontier engine
returns exactly [(1,5),(2,3),(4,1)]; the point (2,8) sharing the first
objective with the accepted (2,3) is excluded by the strict
running-minimum rule. -/
theorem frontier_scenario :
    pareto_front [((1 : ℚ), 5), (2, 3), (2, 8), (4, 1)] = [(1, 5), (2, 3), (4, 1)] := by
  decide

/-! ### Pareto scan lemmas -/

theorem paretoLoop_sublist (m : Option ℚ) (l : List (ℚ × ℚ)) :
    (paretoLoop m l).Sublist l := by
  induction l generalizing m with
  | nil => simp [paretoLoop]
  | cons r rs ih =>
    rw [paretoLoop]
    split
    · exact (ih (some r.2)).cons₂ r
    · exact (ih m).cons r

theorem paretoLoop_mem_ltMin (m : Option ℚ) (l : List (ℚ × ℚ)) :
    ∀ x ∈ paretoLoop m l, ltMin x.2 m = true := by
  induction l generalizing m with
  | nil => simp [paretoLoop]
  | cons r rs ih =>
    rw [paretoLoop]
    split
    · next hc =>
      intro x hx
      rcases List.mem_cons.1 hx with rfl | hx
      · exact hc
      · have hlt : x.2 < r.2 := by
          have := ih (some r.2) x hx
          simpa [ltMin] using this
        cases m with
        | none => rfl
        | some mv =>
          have hrm : r.2 < mv := by simpa [ltMin] using hc
          simpa [ltMin] using hlt.trans hrm
    · next =>
      intro x hx
      exact ih m x hx

theorem paretoLoop_snd_strict_anti (m : Option ℚ) (l : List (ℚ × ℚ)) :
    (paretoLoop m l).Pairwise fun p q => q.2 < p.2 := by
  induction l generalizing m with
  | nil => simp [paretoLoop]
  | cons r rs ih =>
    rw [paretoLoop]
    split
    · refine List.Pairwise.cons ?_ (ih (some r.2))
      intro q hq
      simpa [ltMin] using paretoLoop_mem_ltMin (some r.2) rs q hq
    · exact ih m

theorem lexR_fst_le {p q : ℚ × ℚ} (h : lexR p q) : p.1 ≤ q.1 := by
  rcases h with h | ⟨h, _⟩
  · exact le_of_lt h
  · exact le_of_eq h

/-- Claim C3: the frontier engine's output is a staircase: across its
points the first objective is non-decreasing and the second objective is
non-increasing, so the frontier comes out in ascending first-objective
order and needs no re-sorting before rendering. -/
theorem frontier_staircase (recs : List (ℚ × ℚ)) :
    (pareto_front recs).Pairwise fun p q => p.1 ≤ q.1 ∧ q.2 ≤ p.2 := by
  have hsorted : (List.insertionSort lexR recs).Pairwise fun p q => p.1 ≤ q.1 :=
    (List.sorted_insertionSort lexR recs).imp lexR_fst_le
  have hfst : (pareto_front recs).Pairwise fun p q => p.1 ≤ q.1 :=
    hsorted.sublist (paretoLoop_sublist none (List.insertionSort lexR recs))
  have hsnd : (pareto_front recs).Pairwise fun p q => q.2 ≤ p.2 :=
    (paretoLoop_snd_strict_anti none (List.insertionSort lexR recs)).imp le_of_lt
  exact hfst.and hsnd

theorem paretoLoop_minimality (l : List (ℚ × ℚ)) (m : Option ℚ)
    (hs : l.Pairwise lexR) :
    ∀ e ∈ l, e ∉ paretoLoop m l → ∀ p ∈ paretoLoop m l, ¬(e.1 ≤ p.1 ∧ e.2 < p.2) := by
  induction l generalizing m with
  | nil => simp [paretoLoop]
  | cons r rs ih =>
    have hhead := (List.pairwise_cons.1 hs).1
    have htail := (List.pairwise_cons.1 hs).2
    intro e he hne p hp
    rw [paretoLoop] at hne hp
    split at hp
    · next hc =>
      rw [if_pos hc] at hne
      have hne' : e ≠ r ∧ e ∉ paretoLoop (some r.2) rs := by
        constructor
        · rintro rfl; exact hne (List.mem_cons_self _ _)
        · intro hmem; exact hne (List.mem_cons_of_mem _ hmem)
      have he' : e ∈ rs := by
        rcases List.mem_cons.1 he with rfl | h
        · exact absurd rfl hne'.1
        · exact h
      rcases List.mem_cons.1 hp with rfl | hp'
      · -- p is the head r, and e comes after it in the sorted order
        rintro ⟨hle, hlt⟩
        rcases hhead e he' with h | ⟨_, h2⟩
        · exact absurd hle (not_le.2 h)
        · exact absurd hlt (not_lt.2 h2)
      · exact ih (some r.2) htail e he' hne'.2 p hp'
    · next hc =>
      rw [if_neg hc] at hne
      obtain ⟨mv, rfl, hmr⟩ : ∃ mv, m = some mv ∧ mv ≤ r.2 := by
        cases m with
        | none => exact absurd rfl hc
        | some mv => exact ⟨mv, rfl, le_of_not_lt (by simpa [ltMin] using hc)⟩
      rcases List.mem_cons.1 he with rfl | he'
      · -- e is the skipped head: every emitted point has second objective
        -- strictly below the running minimum, hence below e's
        rintro ⟨_, hlt⟩
        have hpm : p.2 < mv := by
          simpa [ltMin] using paretoLoop_mem_ltMin (some mv) rs p hp
        exact absurd hlt (not_lt.2 (le_of_lt (lt_of_lt_of_le hpm hmr)))
      · exact ih (some mv) htail e he' hne p hp

/-- Claim C2: frontier minimality — no record excluded from the frontier
engine's output has first objective at most some emitted point's first
objective together with second objective strictly below that same point's;
no emitted point is dominated by an excluded record. -/
theorem frontier_minimality (recs : List (ℚ × ℚ)) (e p : ℚ × ℚ)
    (he : e ∈ recs) (hne : e ∉ pareto_front recs) (hp : p ∈ pareto_front recs) :
    ¬(e.1 ≤ p.1 ∧ e.2 < p.2) := by
  have hs := List.sorted_insertionSort lexR recs
  have he' : e ∈ List.insertionSort lexR recs := (List.mem_insertionSort lexR).2 he
  exact paretoLoop_minimality (List.insertionSort lexR recs) none hs e he' hne p hp

/-- Concrete instance of claim C2's theorem: in the scenario table, the
excluded record (2,8) does not dominate the emitted point (2,3). -/
theorem frontier_minimality_witness :
    ((2 : ℚ), (8 : ℚ)) ∈ [((1 : ℚ), (5 : ℚ)), (2, 3), (2, 8), (4, 1)] ∧
    ¬(((2 : ℚ), (8 : ℚ)).1 ≤ ((2 : ℚ), (3 : ℚ)).1 ∧ ((2 : ℚ), (8 : ℚ)).2 < ((2 : ℚ), (3 : ℚ)).2) :=
  ⟨by decide,
   frontier_minimality [(1, 5), (2, 3), (2, 8), (4, 1)] (2, 8) (2, 3)
     (by decide) (by decide) (by decide)⟩

theorem lexR_refl (p : ℚ × ℚ) : lexR p p :=
  Or.inr ⟨rfl, le_refl _⟩

/-- Claim C9: on a non-empty record set the frontier engine emits at least
one point, and its first emitted point is the record minimal under the
lexicographic (first, second) objective order: the scan starts with the
running minimum at +infinity, so the first scanned record always passes
the strict comparison. -/
theorem frontier_first_point (recs : List (ℚ × ℚ)) (h : recs ≠ []) :
    ∃ p, (pareto_front recs).head? = some p ∧ p ∈ recs ∧ ∀ q ∈ recs, lexR p q := by
  cases hsort : List.insertionSort lexR recs with
  | nil =>
    have hperm := List.perm_insertionSort lexR recs
    rw [hsort] at hperm
    exact absurd hperm.symm.eq_nil h
  | cons r rest =>
    refine ⟨r, ?_, ?_, ?_⟩
    · rw [pareto_front, hsort, paretoLoop]
      simp [ltMin]
    · exact (List.mem_insertionSort lexR).1 (by rw [hsort]; exact List.mem_cons_self r rest)
    · intro q hq
      have hq' : q ∈ r :: rest := by
        rw [← hsort]; exact (List.mem_insertionSort lexR).2 hq
      rcases List.mem_cons.1 hq' with rfl | hq''
      · exact lexR_refl q
      · have hs := List.sorted_insertionSort lexR recs
        rw [hsort] at hs
        exact (List.pairwise_cons.1 hs).1 q hq''

/-- Concrete instance of claim C9's theorem on a two-record table. -/
theorem frontier_first_point_witness :
    ∃ p, (pareto_front [((2 : ℚ), 3), (1, 5)]).head? = some p ∧
      p ∈ [((2 : ℚ), 3), (1, 5)] ∧ ∀ q ∈ [((2 : ℚ), 3), (1, 5)], lexR p q :=
  frontier_first_point [((2 : ℚ), 3), (1, 5)] (by decide)

/-! ### Merge lemmas -/

theorem mergeInner_mem (sa : List SaRow) (vina : List VinaRow) (pr : SaRow × VinaRow)
    (h : pr ∈ mergeInner sa vina) :
    pr.1 ∈ sa ∧ pr.2 ∈ vina ∧ pr.2.ligand = pr.1.filename := by
  simp only [mergeInner, List.mem_flatMap, List.mem_map, List.mem_filter] at h
  obtain ⟨a, ha, b, ⟨hb, hk⟩, hpr⟩ := h
  subst hpr
  exact ⟨ha, hb, by simpa using hk⟩

theorem mergeInner_complete (sa : List SaRow) (vina : List VinaRow) (a : SaRow) (b : VinaRow)
    (ha : a ∈ sa) (hb : b ∈ vina) (hk : b.ligand = a.filename) :
    (a, b) ∈ mergeInner sa vina := by
  simp only [mergeInner, List.mem_flatMap, List.mem_map, List.mem_filter]
  exact ⟨a, ha, b, ⟨hb, by simp [hk]⟩, rfl⟩

theorem countP_pair_block (a : SaRow) (vina : List VinaRow) (k : String) :
    ((vina.filter fun b => b.ligand == a.filename).map fun b =>
        ((a, b) : SaRow × VinaRow)).countP (fun pr => pr.1.filename == k) =
      if a.filename == k then vina.countP (fun b => b.ligand == k) else 0 := by
  by_cases hak : a.filename = k
  · subst hak
    rw [if_pos (by simp), List.countP_map]
    have hconst : ((fun pr : SaRow × VinaRow => pr.1.filename == a.filename) ∘
        fun b => (a, b)) = fun _ => true := by
      funext b; simp
    rw [hconst, List.countP_true, List.countP_eq_length_filter]
  · rw [if_neg (by simpa using hak), List.countP_map]
    have hconst : ((fun pr : SaRow × VinaRow => pr.1.filename == k) ∘
        fun b => (a, b)) = fun _ => false := by
      funext b; simpa using hak
    rw [hconst]
    simp

theorem mergeInner_countP (sa : List SaRow) (vina : List VinaRow) (k : String) :
    (mergeInner sa vina).countP (fun pr => pr.1.filename == k) =
      sa.countP (fun a => a.filename == k) * vina.countP (fun b => b.ligand == k) := by
  induction sa with
  | nil => simp [mergeInner]
  | cons a sa ih =>
    simp only [mergeInner, List.flatMap_cons, List.countP_append] at ih ⊢
    rw [countP_pair_block, List.countP_cons, ih]
    cases hak : (a.filename == k) with
    | true => simp [Nat.add_mul, Nat.add_comm]
    | false => simp

/-- Claim C4: join correctness of the merge of lines 42-49.  Every output
row pairs a synthesizability row with a normalized Vina row whose keys
agree; every key present on both sides (after normalization) yields at
least one output row; and the number of output rows carrying a key is the
product of the two sides' multiplicities — cartesian expansion of
duplicates, not deduplication. -/
theorem join_correctness :
    (∀ (sa : List SaRow) (vina : List VinaRow) pr, pr ∈ plotMerge sa vina →
        pr.1 ∈ sa ∧ pr.2 ∈ vina.map normalizeVina ∧ pr.2.ligand = pr.1.filename) ∧
    (∀ (sa : List SaRow) (vina : List VinaRow) (k : String),
        (∃ a ∈ sa, a.filename = k) → (∃ b ∈ vina, (normalizeVina b).ligand = k) →
        ∃ pr ∈ plotMerge sa vina, pr.1.filename = k ∧ pr.2.ligand = k) ∧
    (∀ (sa : List SaRow) (vina : List VinaRow) (k : String),
        (plotMerge sa vina).countP (fun pr => pr.1.filename == k) =
          sa.countP (fun a => a.filename == k) *
            (vina.map normalizeVina).countP (fun b => b.ligand == k)) := by
  refine ⟨?_, ?_, ?_⟩
  · intro sa vina pr h
    exact mergeInner_mem sa (vina.map normalizeVina) pr h
  · rintro sa vina k ⟨a, ha, rfl⟩ ⟨b, hb, hbk⟩
    refine ⟨(a, normalizeVina b), ?_, rfl, hbk⟩
    exact mergeInner_complete sa (vina.map normalizeVina) a (normalizeVina b) ha
      (List.mem_map_of_mem normalizeVina hb) hbk
  · intro sa vina k
    exact mergeInner_countP sa (vina.map normalizeVina) k

/-- Concrete instance of claim C4's theorem: a repeated "7.sdf" key on the
left and the numeric key "7" on the right (normalized to "7.sdf") match,
and the duplicate expands to two output rows. -/
theorem join_correctness_witness :
    (∃ pr ∈ plotMerge [⟨"7.sdf", []⟩] [⟨"7", ["v"]⟩],
        pr.1.filename = "7.sdf" ∧ pr.2.ligand = "7.sdf") ∧
    (plotMerge [⟨"7.sdf", []⟩, ⟨"7.sdf", ["s"]⟩] [⟨"7", ["v"]⟩]).countP
        (fun pr => pr.1.filename == "7.sdf") = 2 :=
  ⟨join_correctness.2.1 [⟨"7.sdf", []⟩] [⟨"7", ["v"]⟩] "7.sdf" (by decide) (by decide),
   (join_correctness.2.2 [⟨"7.sdf", []⟩, ⟨"7.sdf", ["s"]⟩] [⟨"7", ["v"]⟩] "7.sdf").trans
     (by decide)⟩

/-- Counterexample to claim C7: two non-empty input tables with an empty
normalized-key intersection produce exactly the same merge result and the
same warning outcome as two tables with no input rows at all — the
empty-intersection case is not distinguishable from the no-input-rows
case, and it is surfaced as a printed warning with an early return, not as
a terminating configuration error. -/
theorem empty_intersection_indistinguishable :
    plotMerge [⟨"a", []⟩] [⟨"b", []⟩] = [] ∧
    plotMerge ([] : List SaRow) ([] : List VinaRow) = [] ∧
    plotMergeOutcome [⟨"a", []⟩] [⟨"b", []⟩] = plotMergeOutcome [] [] ∧
    ([⟨"a", []⟩] : List SaRow) ≠ [] ∧ ([⟨"b", []⟩] : List VinaRow) ≠ [] := by
  decide

/-- Claim C7 as amended: when the merge result is empty — whether because
the normalized-key intersection is empty or because an input table has no
rows — the function takes the warning branch of lines 51-53 (print a
warning naming the key columns, then return with no further output), and
this warning outcome occurs exactly when the merged table is empty; the
two causes of emptiness are not distinguished. -/
theorem empty_merge_warning (sa : List SaRow) (vina : List VinaRow) :
    plotMergeOutcome sa vina = MergeOutcome.emptyWarning ↔ plotMerge sa vina = [] := by
  unfold plotMergeOutcome
  split
  · next h => simp [h]
  · next h => simp [h]

/-! ### Rank sorter lemmas -/

theorem keyD_eq_of_rowKey {header row : List String} {k : ℚ}
    (h : rowKey header row = some k) : keyD header row = k := by
  simp [keyD, h]

theorem filter_key_orderedInsert (header : List String) (k : ℚ) (a : List String)
    (l : List (List String)) :
    (List.orderedInsert (rowLe header) a l).filter (fun r => rowKey header r == some k) =
      if rowKey header a == some k then
        a :: l.filter (fun r => rowKey header r == some k)
      else l.filter (fun r => rowKey header r == some k) := by
  induction l with
  | nil =>
    rw [List.orderedInsert_nil, List.filter_cons]
  | cons b l ih =>
    rw [List.orderedInsert]
    by_cases hab : rowLe header a b
    · rw [if_pos hab, List.filter_cons]
    · rw [if_neg hab, List.filter_cons, List.filter_cons, ih]
      cases hpa : (rowKey header a == some k) with
      | true =>
        cases hpb : (rowKey header b == some k) with
        | true =>
          -- both rows would carry key k, making their keys equal and the
          -- comparator true, contradicting the insertion step taken
          exfalso
          apply hab
          have ha' : rowKey header a = some k := by simpa using hpa
          have hb' : rowKey header b = some k := by simpa using hpb
          unfold rowLe
          rw [keyD_eq_of_rowKey ha', keyD_eq_of_rowKey hb']
        | false => simp [hpa, hpb]
      | false =>
        cases hpb : (rowKey header b == some k) <;> simp [hpa, hpb]

theorem filter_key_insertionSort (header : List String) (k : ℚ)
    (rows : List (List String)) :
    (List.insertionSort (rowLe header) rows).filter (fun r => rowKey header r == some k) =
      rows.filter (fun r => rowKey header r == some k) := by
  induction rows with
  | nil => rfl
  | cons a l ih =>
    rw [List.insertionSort, filter_key_orderedInsert, List.filter_cons, ih]

/-- Claim C8: when every key parses, the rank sorter of line 26 returns
the rows in ascending order of the parsed key, and rows sharing an
identical key keep their input order (stability): for every key value,
filtering the output down to that key gives exactly the input rows with
that key, in input order. -/
theorem sort_stable_ascending (header : List String) (rows out : List (List String))
    (h : sortRowsByKey header rows = some out) :
    out.Pairwise (fun a b => ∀ ka kb, rowKey header a = some ka →
        rowKey header b = some kb → ka ≤ kb) ∧
    (∀ k : ℚ, out.filter (fun r => rowKey header r == some k) =
        rows.filter (fun r => rowKey header r == some k)) ∧
    out.Perm rows := by
  unfold sortRowsByKey at h
  split at h
  · have hout : out = List.insertionSort (rowLe header) rows := by
      injection h with h'
      exact h'.symm
    subst hout
    refine ⟨?_, ?_, List.perm_insertionSort (rowLe header) rows⟩
    · refine (List.sorted_insertionSort (rowLe header) rows).imp ?_
      intro a b hab ka kb hka hkb
      rw [← keyD_eq_of_rowKey hka, ← keyD_eq_of_rowKey hkb]
      exact hab
    · intro k
      exact filter_key_insertionSort header k rows
  · exact absurd h (by simp)

/-- Concrete instance of claim C8's theorem: rows "a" and "c" share the
key 2 and keep their input order behind the key-1 row "b". -/
theorem sort_stable_ascending_witness :
    sortRowsByKey ["ligand", "affinity_kcal/mol"] [["a", "2"], ["b", "1"], ["c", "2"]] =
      some [["b", "1"], ["a", "2"], ["c", "2"]] ∧
    (∀ k : ℚ, ([["b", "1"], ["a", "2"], ["c", "2"]] :
          List (List String)).filter
          (fun r => rowKey ["ligand", "affinity_kcal/mol"] r == some k) =
        ([["a", "2"], ["b", "1"], ["c", "2"]] : List (List String)).filter
          (fun r => rowKey ["ligand", "affinity_kcal/mol"] r == some k)) :=
  ⟨by decide,
   (sort_stable_ascending ["ligand", "affinity_kcal/mol"]
     [["a", "2"], ["b", "1"], ["c", "2"]] [["b", "1"], ["a", "2"], ["c", "2"]]
     (by decide)).2.1⟩

/-! ### Abort-on-parse-failure lemmas -/

theorem mapM_eq_none_of_mem {α β : Type} (f : α → Option β) {l : List α} {x : α}
    (hx : x ∈ l) (hfx : f x = none) : l.mapM f = none := by
  induction l with
  | nil => cases hx
  | cons a l ih =>
    rw [List.mapM_cons]
    rcases List.mem_cons.1 hx with rfl | hx'
    · rw [hfx]; rfl
    · cases hfa : f a with
      | none => rfl
      | some b => rw [ih hx']; rfl

/-- Claim C6: parse-failure policy.  If any row's key cell fails to parse
as a float, the whole rank sort fails and no partial ranked output is
produced; likewise, if any merged record's objective cell fails to parse,
the frontier computation aborts and no partial frontier is produced. -/
theorem parse_error_aborts :
    (∀ (header : List String) (rows : List (List String)) (r : List String),
        r ∈ rows → rowKey header r = none → sortRowsByKey header rows = none) ∧
    (∀ (frows : List (String × String)) (fr : String × String), fr ∈ frows →
        parseFloat fr.1 = none ∨ parseFloat fr.2 = none → frontierChecked frows = none) := by
  constructor
  · intro header rows r hr hbad
    unfold sortRowsByKey
    rw [if_neg]
    intro hall
    have := List.all_eq_true.1 hall r hr
    rw [hbad] at this
    exact Bool.false_ne_true this
  · intro frows fr hfr hbad
    have hpt : parsePoint fr = none := by
      unfold parsePoint
      rcases hbad with h | h
      · simp [h]
      · rw [h]
        cases parseFloat fr.1 <;> rfl
    unfold frontierChecked
    rw [mapM_eq_none_of_mem parsePoint hfr hpt]
    rfl

/-- Concrete instance of claim C6's theorem: a non-numeric key cell makes
the sort fail, and a non-numeric objective cell makes the frontier path
fail. -/
theorem parse_error_aborts_witness :
    sortRowsByKey ["affinity_kcal/mol"] [["oops"]] = none ∧
    frontierChecked [("1", "bad")] = none :=
  ⟨parse_error_aborts.1 ["affinity_kcal/mol"] [["oops"]] ["oops"] (by decide) (by decide),
   parse_error_aborts.2 [("1", "bad")] ("1", "bad") (by decide) (Or.inr (by decide))⟩

/-- Claim C10: the rank sorter's line filter silently discards every raw
input line without a comma before parsing: removing such a line from the
input leaves the entire result — success or failure alike — unchanged, so
a malformed single-column row is dropped with no error and never reaches
the ranked output. -/
theorem no_comma_line_dropped (l1 l2 : List String) (x : String)
    (hx : hasComma x = false) :
    postprocess (l1 ++ x :: l2) = postprocess (l1 ++ l2) := by
  unfold postprocess
  rw [List.filter_append, List.filter_append, List.filter_cons, hx]
  simp

/-- Concrete instance of claim C10's theorem: the comma-free line "junk"
does not change the postprocessing result. -/
theorem no_comma_line_dropped_witness :
    hasComma "junk" = false ∧
    postprocess (["ligand,affinity_kcal/mol"] ++ "junk" :: ["a,2"]) =
      postprocess (["ligand,affinity_kcal/mol"] ++ ["a,2"]) :=
  ⟨by decide, no_comma_line_dropped ["ligand,affinity_kcal/mol"] ["a,2"] "junk" (by decide)⟩

end VinaBox
